import Mathlib

/-!
Verification of the aggregation and local-training protocol logic of the
`fluke` federated-learning algorithms `FedAVGM` (src/fluke/algorithms/fedavgm.py)
and `FedDyn` (src/fluke/algorithms/feddyn.py).

The FedAVGM server aggregation is element-wise per state-dict key, so it is
embedded per key: a key's tensor is a function `Fin n → ℚ`, and the per-key
flags `ignored` (key ends with `STATE_DICT_KEYS_TO_IGNORE`) and `trainable`
(key appears in `named_parameters`) are booleans.

The FedDyn code flattens and unflattens parameter vectors, so there a model
is a list of parameters, each a `requires_grad` flag plus a flat list of
rational values (only the flattened length of a shape is observable in the
source arithmetic).
-/

namespace FedAVGM

/-- One state-dict entry: a tensor with `n` elements, values in ℚ. -/
abbrev Vec (n : ℕ) := Fin n → ℚ

/-- The all-zero tensor. -/
def vzero (n : ℕ) : Vec n := fun _ => 0

/-- Element-wise tensor addition. -/
def vadd {n : ℕ} (a b : Vec n) : Vec n := fun i => a i + b i

/-- Element-wise tensor subtraction. -/
def vsub {n : ℕ} (a b : Vec n) : Vec n := fun i => a i - b i

/-- Scalar multiplication of a tensor. -/
def vsmul {n : ℕ} (c : ℚ) (a : Vec n) : Vec n := fun i => c * a i

/-- Modelled from the spec: `diff_model` (from `fluke.utils.model`, not under
src/) returns `reference[key] - client[key]` for every key not in the ignore
set (spec section 4.1); `FedAVGMServer.aggregate` reads it only at
non-ignored keys. -/
def diff_model {n : ℕ} (ref client : Vec n) : Vec n := vsub ref client

/-- The state of `FedAVGMServer` restricted to one state-dict key:
the global model's tensor for that key and the momentum buffer's entry
(`none` before the first aggregation, when `self.momentum_vector is None`). -/
structure AVGMKey (n : ℕ) where
  param : Vec n
  momentum : Option (Vec n)

/-- Input of one aggregation round at a fixed key: the client weights
(`self._get_client_weights(eligible)`, an external input) paired with the
eligible clients' tensors at this key. -/
abbrev RoundInput (n : ℕ) := List ℚ × List (Vec n)

/-- The `avg_model_sd[key]` accumulation of `FedAVGMServer.aggregate` for a
non-ignored key: the first client diff initializes the entry
(`if key not in avg_model_sd`), subsequent clients add
`weights[i] * client_diff[key]`.  With no eligible clients the source leaves
the key undefined and later raises `KeyError` (spec: empty eligibility is
undefined); here that unused case returns the zero tensor. -/
def weightedDiff {n : ℕ} (g : Vec n) : List ℚ → List (Vec n) → Vec n
  | w :: ws, c :: cs =>
      (ws.zip cs).foldl (fun acc wc => vadd acc (vsmul wc.1 (diff_model g wc.2)))
        (vsmul w (diff_model g c))
  | _, _ => vzero n

/-- One call of `FedAVGMServer.aggregate` restricted to a single key with
element count `n`.  `mu` is `self.hyper_params.momentum`; `ign` tells whether
the key ends with `STATE_DICT_KEYS_TO_IGNORE` (then `avg_model_sd[key]` is
the server's own tensor, cloned); `tr` tells whether the key occurs in
`self.model.named_parameters()` (only those get `param.data = param.data -
momentum_vector[key].data`). -/
def aggregateKey {n : ℕ} (mu : ℚ) (ign tr : Bool) (ws : List ℚ) (cs : List (Vec n))
    (st : AVGMKey n) : AVGMKey n :=
  let avg : Vec n := if ign then st.param else weightedDiff st.param ws cs
  let mom : Vec n :=
    match st.momentum with
    | none => avg
    | some m => vadd (vsmul mu m) avg
  { param := if tr then vsub st.param mom else st.param
    momentum := some mom }

/-- A sequence of aggregation rounds at a fixed key. -/
def runRounds {n : ℕ} (mu : ℚ) (ign tr : Bool) (rds : List (RoundInput n))
    (st : AVGMKey n) : AVGMKey n :=
  rds.foldl (fun s r => aggregateKey mu ign tr r.1 r.2 s) st

/-- The per-round weighted diffs `d_1, …, d_k` produced along a sequence of
rounds: `d_j` is the weighted client diff computed against the global tensor
as it stands at the start of round `j`. -/
def diffTrace {n : ℕ} (mu : ℚ) (ign tr : Bool) (st : AVGMKey n) :
    List (RoundInput n) → List (Vec n)
  | [] => []
  | r :: rs =>
      weightedDiff st.param r.1 r.2 ::
        diffTrace mu ign tr (aggregateKey mu ign tr r.1 r.2 st) rs

/-- The closed form claimed by the spec: after rounds with diffs
`d_1, …, d_k`, the momentum equals `Σ_{j=1..k} mu ^ (k - j) * d_j`. -/
def momClosed {n : ℕ} (mu : ℚ) : List (Vec n) → Vec n
  | [] => vzero n
  | d :: ds => vadd (vsmul (mu ^ ds.length) d) (momClosed mu ds)

lemma diffTrace_length {n : ℕ} (mu : ℚ) (ign tr : Bool) :
    ∀ (rds : List (RoundInput n)) (st : AVGMKey n),
      (diffTrace mu ign tr st rds).length = rds.length := by
  intro rds
  induction rds with
  | nil => intro st; rfl
  | cons r rs ih => intro st; simp [diffTrace, ih]

lemma weightedDiff_foldl_apply {n : ℕ} (g : Vec n) (l : List (ℚ × Vec n)) :
    ∀ (a : Vec n) (i : Fin n),
      (l.foldl (fun acc wc => vadd acc (vsmul wc.1 (diff_model g wc.2))) a) i
        = a i + (l.map (fun wc => wc.1 * (g i - wc.2 i))).sum := by
  induction l with
  | nil => intro a i; simp
  | cons hd tl ih =>
      intro a i
      rw [List.foldl_cons, ih]
      simp [vadd, vsmul, diff_model, vsub]
      ring

lemma weightedDiff_sum {n : ℕ} (g : Vec n) (w : ℚ) (ws : List ℚ) (c : Vec n)
    (cs : List (Vec n)) (i : Fin n) :
    weightedDiff g (w :: ws) (c :: cs) i
      = (((w :: ws).zip (c :: cs)).map (fun wc => wc.1 * (g i - wc.2 i))).sum := by
  show (List.foldl _ (vsmul w (diff_model g c)) (ws.zip cs)) i = _
  rw [weightedDiff_foldl_apply]
  simp [vsmul, diff_model, vsub]

lemma aggregateKey_momentum_some {n : ℕ} (mu : ℚ) (tr : Bool) (ws : List ℚ)
    (cs : List (Vec n)) (st : AVGMKey n) (m : Vec n) (h : st.momentum = some m) :
    (aggregateKey mu false tr ws cs st).momentum
      = some (vadd (vsmul mu m) (weightedDiff st.param ws cs)) := by
  simp [aggregateKey, h]

lemma runRounds_momentum_some {n : ℕ} (mu : ℚ) (tr : Bool) :
    ∀ (rds : List (RoundInput n)) (st : AVGMKey n) (m : Vec n),
      st.momentum = some m →
      (runRounds mu false tr rds st).momentum
        = some (vadd (vsmul (mu ^ rds.length) m)
            (momClosed mu (diffTrace mu false tr st rds))) := by
  intro rds
  induction rds with
  | nil =>
      intro st m h
      simp only [runRounds, List.foldl_nil, h, List.length_nil, diffTrace, momClosed]
      congr 1
      funext i
      simp [vadd, vsmul, vzero]
  | cons r rs ih =>
      intro st m h
      have hstep := aggregateKey_momentum_some mu tr r.1 r.2 st m h
      have hrun : runRounds mu false tr (r :: rs) st
          = runRounds mu false tr rs (aggregateKey mu false tr r.1 r.2 st) := rfl
      rw [hrun, ih _ _ hstep]
      simp only [diffTrace, momClosed, List.length_cons, diffTrace_length]
      congr 1
      funext i
      simp only [vadd, vsmul]
      ring

/-- C1: for every sequence of aggregation rounds of `FedAVGMServer` at a
non-ignored key, (a) the momentum buffer after round `k` equals
`Σ_{j=1..k} mu ^ (k-j) * d_j` where `d_j` is round `j`'s weighted diff (so on
the first call it equals the first weighted average), (b) each `d_j` is
`Σ_i weight_i * (global - client_i)` element-wise, and (c) in each round
every trainable global parameter is updated as `θ ← θ - momentum`. -/
theorem fedavgm_momentum_recurrence {n : ℕ} (mu : ℚ) (p : Vec n)
    (rds : List (RoundInput n)) (hne : rds ≠ []) :
    (runRounds mu false true rds ⟨p, none⟩).momentum
        = some (momClosed mu (diffTrace mu false true ⟨p, none⟩ rds))
    ∧ (∀ (g : Vec n) (w : ℚ) (ws : List ℚ) (c : Vec n) (cs : List (Vec n)) (i : Fin n),
        weightedDiff g (w :: ws) (c :: cs) i
          = (((w :: ws).zip (c :: cs)).map (fun wc => wc.1 * (g i - wc.2 i))).sum)
    ∧ (∀ j, j < rds.length →
        (runRounds mu false true (rds.take (j + 1)) ⟨p, none⟩).param
          = vsub (runRounds mu false true (rds.take j) ⟨p, none⟩).param
              (((runRounds mu false true (rds.take (j + 1)) ⟨p, none⟩).momentum).getD
                (vzero n))) := by
  refine ⟨?_, fun g w ws c cs i => weightedDiff_sum g w ws c cs i, ?_⟩
  · match rds, hne with
    | r :: rs, _ =>
        have hfirst : (aggregateKey mu false true r.1 r.2 ⟨p, none⟩).momentum
            = some (weightedDiff p r.1 r.2) := by
          simp [aggregateKey]
        have hrun : runRounds mu false true (r :: rs) ⟨p, none⟩
            = runRounds mu false true rs (aggregateKey mu false true r.1 r.2 ⟨p, none⟩) := rfl
        rw [hrun, runRounds_momentum_some mu true rs _ _ hfirst]
        simp only [diffTrace, momClosed, diffTrace_length]
  · intro j hj
    have htake : rds.take (j + 1) = rds.take j ++ [rds.get ⟨j, hj⟩] := by
      rw [List.take_succ]
      congr 1
      simp [List.getElem?_eq_getElem hj]
    have hsplit :
        runRounds mu false true (rds.take (j + 1)) ⟨p, none⟩
          = aggregateKey mu false true (rds.get ⟨j, hj⟩).1 (rds.get ⟨j, hj⟩).2
              (runRounds mu false true (rds.take j) ⟨p, none⟩) := by
      rw [htake]
      simp only [runRounds, List.foldl_append, List.foldl_cons, List.foldl_nil]
    rw [hsplit]
    set s := runRounds mu false true (rds.take j) ⟨p, none⟩ with hs
    cases hm : s.momentum <;> simp [aggregateKey, hm]

/-- Witness for C1 at the spec's concrete example: one scalar key, `μ = 9/10`,
weights `[1]`, two rounds with client values `8` then `5`, so the diffs are
`d₁ = 2`, `d₂ = 3`, and the momentum after round 2 is `0.9·2 + 3 = 4.8`. -/
theorem fedavgm_momentum_recurrence_ex :
    (runRounds ((9 : ℚ)/10) false true
        ([([1], [fun _ => 8]), ([1], [fun _ => 5])] : List (RoundInput 1))
        ⟨fun _ => 10, none⟩).momentum
        = some (momClosed ((9 : ℚ)/10)
            (diffTrace ((9 : ℚ)/10) false true ⟨fun _ => 10, none⟩
              [([1], [fun _ => 8]), ([1], [fun _ => 5])]))
    ∧ (∀ (g : Vec 1) (w : ℚ) (ws : List ℚ) (c : Vec 1) (cs : List (Vec 1)) (i : Fin 1),
        weightedDiff g (w :: ws) (c :: cs) i
          = (((w :: ws).zip (c :: cs)).map (fun wc => wc.1 * (g i - wc.2 i))).sum)
    ∧ (∀ j, j < ([([1], [fun _ => 8]), ([1], [fun _ => 5])] : List (RoundInput 1)).length →
        (runRounds ((9 : ℚ)/10) false true
            (([([1], [fun _ => 8]), ([1], [fun _ => 5])] : List (RoundInput 1)).take (j + 1))
            ⟨fun _ => 10, none⟩).param
          = vsub (runRounds ((9 : ℚ)/10) false true
              (([([1], [fun _ => 8]), ([1], [fun _ => 5])] : List (RoundInput 1)).take j)
              ⟨fun _ => 10, none⟩).param
              (((runRounds ((9 : ℚ)/10) false true
                  (([([1], [fun _ => 8]), ([1], [fun _ => 5])] : List (RoundInput 1)).take (j + 1))
                  ⟨fun _ => 10, none⟩).momentum).getD (vzero 1))) :=
  fedavgm_momentum_recurrence ((9 : ℚ)/10) (fun _ => 10)
    [([1], [fun _ => 8]), ([1], [fun _ => 5])] (by simp)

/-- C8: for every aggregation round sequence of `FedAVGMServer` and every
ignored key (a key ending in `STATE_DICT_KEYS_TO_IGNORE`; such keys are
batch-norm buffers, never `named_parameters`), the global model's tensor at
that key after aggregating equals the server's pre-aggregation tensor
exactly, regardless of the eligible clients' tensors. -/
theorem fedavgm_ignored_key_unchanged {n : ℕ} (mu : ℚ)
    (rds : List (RoundInput n)) (st : AVGMKey n) :
    (runRounds mu true false rds st).param = st.param := by
  induction rds generalizing st with
  | nil => rfl
  | cons r rs ih =>
      have : runRounds mu true false (r :: rs) st
          = runRounds mu true false rs (aggregateKey mu true false r.1 r.2 st) := rfl
      rw [this, ih]
      simp [aggregateKey]

end FedAVGM

namespace FedDyn

/-- One model parameter as seen by the FedDyn code: its `requires_grad` flag
and its values flattened to one dimension (`param.reshape(-1)`); only the
flattened length of a parameter's shape is observable in the source
arithmetic.  A model is a `List Param` in `named_parameters` order. -/
structure Param where
  requires_grad : Bool
  data : List ℚ
deriving DecidableEq

/-- Element-wise addition of flat vectors (`torch` `+` on 1-d tensors). -/
def ladd (a b : List ℚ) : List ℚ := List.zipWith (fun x y => x + y) a b

/-- Element-wise subtraction of flat vectors. -/
def lsub (a b : List ℚ) : List ℚ := List.zipWith (fun x y => x - y) a b

/-- Element-wise negation of a flat vector. -/
def lneg (a : List ℚ) : List ℚ := a.map (fun x => -x)

/-- Scalar multiplication of a flat vector. -/
def lsmul (c : ℚ) (a : List ℚ) : List ℚ := a.map (fun x => c * x)

/-- Dot product: `torch.sum(a * b)` for 1-d tensors. -/
def ldot (a b : List ℚ) : ℚ := (List.zipWith (fun x y => x * y) a b).sum

/-- `get_all_params_of(model)` from feddyn.py: fold over `model.parameters()`,
skipping parameters with `requires_grad` unset; the first trainable parameter
initializes `result`, later ones are concatenated with `torch.cat`; with no
trainable parameter the initial `None` is returned.  The `copy` flag of the
source only chooses between `clone().detach()` and an aliasing view, which is
value-irrelevant here. -/
def get_all_params_of (model : List Param) : Option (List ℚ) :=
  model.foldl
    (fun result p =>
      if p.requires_grad then
        match result with
        | none => some p.data
        | some r => some (r ++ p.data)
      else result)
    none

/-- Concatenation of the data of the trainable parameters, in order. -/
def trainFlat (model : List Param) : List ℚ :=
  model.foldr (fun p acc => if p.requires_grad then p.data ++ acc else acc) []

/-- Total number of trainable (`requires_grad`) parameter elements. -/
def trainable_size (model : List Param) : ℕ :=
  model.foldr (fun p acc => if p.requires_grad then p.data.length + acc else acc) 0

/-- The loop of `load_all_params(device, model, params)` from feddyn.py:
walk `model.named_parameters()` keeping an absolute offset `idx` into
`params`; parameters with `requires_grad` unset are left untouched and do not
advance `idx`; a trainable parameter's data is replaced by
`params[idx : idx + length]` reshaped to its own shape, and `idx` advances by
its length. -/
def load_aux (params : List ℚ) : List Param → ℕ → List Param
  | [], _ => []
  | p :: ps, idx =>
      if p.requires_grad then
        { p with data := (params.drop idx).take p.data.length } ::
          load_aux params ps (idx + p.data.length)
      else
        p :: load_aux params ps idx

/-- `load_all_params(device, model, params)` from feddyn.py (offset starts
at 0; the trailing `load_state_dict(dict_param, strict=False)` commits the
updated values). -/
def load_all_params (model : List Param) (params : List ℚ) : List Param :=
  load_aux params model 0

lemma trainFlat_cons (p : Param) (ps : List Param) :
    trainFlat (p :: ps)
      = if p.requires_grad then p.data ++ trainFlat ps else trainFlat ps := rfl

lemma trainable_size_cons (p : Param) (ps : List Param) :
    trainable_size (p :: ps)
      = if p.requires_grad then p.data.length + trainable_size ps
        else trainable_size ps := rfl

lemma get_foldl_some (model : List Param) :
    ∀ r : List ℚ,
      model.foldl
        (fun result p =>
          if p.requires_grad then
            match result with
            | none => some p.data
            | some s => some (s ++ p.data)
          else result)
        (some r) = some (r ++ trainFlat model) := by
  induction model with
  | nil => intro r; simp [trainFlat]
  | cons p ps ih =>
      intro r
      by_cases hp : p.requires_grad <;>
        simp [List.foldl_cons, hp, ih, trainFlat_cons, List.append_assoc]

lemma get_cons_trainable (p : Param) (ps : List Param) (hp : p.requires_grad = true) :
    get_all_params_of (p :: ps) = some (p.data ++ trainFlat ps) := by
  show List.foldl _ (if p.requires_grad = true then _ else _) ps = _
  rw [if_pos hp]
  exact get_foldl_some ps p.data

lemma get_cons_frozen (p : Param) (ps : List Param) (hp : ¬p.requires_grad = true) :
    get_all_params_of (p :: ps) = get_all_params_of ps := by
  show List.foldl _ (if p.requires_grad = true then _ else _) ps = _
  rw [if_neg hp]
  rfl

lemma get_all_params_eq_trainFlat (model : List Param)
    (h : ∃ p ∈ model, p.requires_grad = true) :
    get_all_params_of model = some (trainFlat model) := by
  induction model with
  | nil => simp at h
  | cons p ps ih =>
      by_cases hp : p.requires_grad
      · rw [get_cons_trainable p ps hp, trainFlat_cons, if_pos hp]
      · have hex : ∃ q ∈ ps, q.requires_grad = true := by
          rcases h with ⟨q, hq, hqt⟩
          rcases List.mem_cons.mp hq with h1 | h2
          · exact absurd (h1 ▸ hqt) (by simpa using hp)
          · exact ⟨q, h2, hqt⟩
        rw [get_cons_frozen p ps hp, ih hex, trainFlat_cons, if_neg hp]

lemma get_all_params_none_iff (model : List Param) :
    get_all_params_of model = none ↔ ∀ p ∈ model, p.requires_grad = false := by
  induction model with
  | nil => simp [get_all_params_of]
  | cons p ps ih =>
      by_cases hp : p.requires_grad
      · constructor
        · intro h
          rw [get_cons_trainable p ps hp] at h
          exact Option.noConfusion h
        · intro h
          exact absurd (h p (List.mem_cons_self p ps)) (by simpa using hp)
      · rw [get_cons_frozen p ps hp, ih]
        constructor
        · intro h q hq
          rcases List.mem_cons.mp hq with h1 | h2
          · simpa [h1] using (by simpa using hp : p.requires_grad = false)
          · exact h q h2
        · intro h q hq
          exact h q (List.mem_cons_of_mem p hq)

lemma trainFlat_length (model : List Param) :
    (trainFlat model).length = trainable_size model := by
  induction model with
  | nil => rfl
  | cons p ps ih =>
      by_cases hp : p.requires_grad <;>
        simp [trainFlat_cons, trainable_size_cons, hp, ih]

lemma load_aux_of_drop (params : List ℚ) :
    ∀ (model : List Param) (idx : ℕ) (rest : List ℚ),
      params.drop idx = trainFlat model ++ rest →
      load_aux params model idx = model := by
  intro model
  induction model with
  | nil => intro idx rest _; rfl
  | cons p ps ih =>
      intro idx rest h
      obtain ⟨rg, pd⟩ := p
      cases rg with
      | true =>
          rw [trainFlat_cons, if_pos rfl, List.append_assoc] at h
          have htake : (params.drop idx).take pd.length = pd := by
            show (params.drop idx).take (pd.length) = pd
            rw [h]
            exact List.take_left' rfl
          have hdropnext : params.drop (idx + pd.length)
              = trainFlat ps ++ rest := by
            rw [← List.drop_drop, h]
            exact List.drop_left' rfl
          show ({ requires_grad := true, data := (params.drop idx).take pd.length } : Param)
              :: load_aux params ps (idx + pd.length) = _
          rw [htake, ih (idx + pd.length) rest hdropnext]
      | false =>
          rw [trainFlat_cons] at h
          simp only [Bool.false_eq_true, if_false] at h
          show (⟨false, pd⟩ : Param) :: load_aux params ps idx = _
          rw [ih idx rest h]

/-- C7: flattening a model's trainable parameters with `get_all_params_of`
and loading the resulting vector back with `load_all_params` reproduces the
original parameters exactly (values, lengths and `requires_grad` flags, so
in particular untouched frozen parameters), and the vector's length equals
the total number of trainable parameter elements. -/
theorem feddyn_flatten_roundtrip (model : List Param) (v : List ℚ)
    (h : get_all_params_of model = some v) :
    load_all_params model v = model ∧ v.length = trainable_size model := by
  have hex : ∃ p ∈ model, p.requires_grad = true := by
    by_contra hno
    push_neg at hno
    have hall : ∀ p ∈ model, p.requires_grad = false := by
      intro p hp
      simpa using hno p hp
    rw [(get_all_params_none_iff model).mpr hall] at h
    exact Option.noConfusion h
  have hv : v = trainFlat model := by
    have := get_all_params_eq_trainFlat model hex
    rw [this] at h
    exact (Option.some.injEq _ _).mp h.symm
  constructor
  · apply load_aux_of_drop v model 0 []
    rw [hv]
    simp
  · rw [hv, trainFlat_length]

/-- Witness for C7: a model with trainable parameters of lengths 2 and 1 and
a frozen parameter in between flattens to `[1, 2, 3]`, loads back to itself,
and the length 3 is the trainable element count. -/
theorem feddyn_flatten_roundtrip_ex :
    load_all_params
        [⟨true, [1, 2]⟩, ⟨false, [5]⟩, ⟨true, [3]⟩] [1, 2, 3]
      = [⟨true, [1, 2]⟩, ⟨false, [5]⟩, ⟨true, [3]⟩]
    ∧ ([1, 2, 3] : List ℚ).length
      = trainable_size [⟨true, [1, 2]⟩, ⟨false, [5]⟩, ⟨true, [3]⟩] :=
  feddyn_flatten_roundtrip [⟨true, [1, 2]⟩, ⟨false, [5]⟩, ⟨true, [3]⟩] [1, 2, 3]
    (by decide)

/-- Init of `prev_grads` in `FedDynClient.receive_model` on first model
receipt: `torch.zeros_like(get_all_params_of(self.model))`; `zeros_like`
applied to `None` raises, modelled by propagating `none`. -/
def receive_prev_grads_init (model : List Param) : Option (List ℚ) :=
  (get_all_params_of model).map (fun v => v.map (fun _ => (0 : ℚ)))

/-- C10: `get_all_params_of` returns `None` (not a zero-length vector) exactly
for models in which no parameter has `requires_grad` set; consequently the
`prev_grads` zero-initialization in `receive_model` fails (`torch.zeros_like`
of `None`) exactly in that case, so callers presuppose at least one trainable
parameter. -/
theorem feddyn_get_params_none (model : List Param) :
    (get_all_params_of model = none ↔ ∀ p ∈ model, p.requires_grad = false)
    ∧ ((∀ p ∈ model, p.requires_grad = false) → get_all_params_of model ≠ some [])
    ∧ (receive_prev_grads_init model = none
        ↔ ∀ p ∈ model, p.requires_grad = false) := by
  refine ⟨get_all_params_none_iff model, ?_, ?_⟩
  · intro hall
    rw [(get_all_params_none_iff model).mpr hall]
    exact Option.noConfusion
  · rw [receive_prev_grads_init, Option.map_eq_none']
    exact get_all_params_none_iff model

/-- The external training machinery consumed by `FedDynClient.fit` (spec
section 6): the task loss `self.hyper_params.loss_fn(self.model(X), y)` for a
minibatch, and the effect on the model of `loss.backward()`,
`self._clip_grads` and `self.optimizer.step()` for a minibatch given the
scalar loss that was backpropagated. -/
structure TrainOracle (B : Type) where
  taskLoss : List Param → B → ℚ
  optStep : List Param → B → ℚ → List Param

/-- `alpha_coef_adpt = self.hyper_params.alpha / self.weight` from
`FedDynClient.fit`. -/
def alpha_coef_adpt (alpha weight : ℚ) : ℚ := alpha / weight

/-- The dynamic-regularization penalty of `FedDynClient.fit`:
`alpha_coef_adpt * torch.sum(curr_params * (-server_params + prev_grads))`. -/
def penalty (ac : ℚ) (curr server_params prev_grads : List ℚ) : ℚ :=
  ac * ldot curr (ladd (lneg server_params) prev_grads)

/-- One minibatch of the inner loop of `FedDynClient.fit`: flatten the current
trainable parameters (`get_all_params_of(self.model, False)`, same values as
the copying variant), add the penalty to the task loss, backpropagate and
step the optimizer, and accumulate the running loss.  The state is the model
paired with `running_loss`. -/
def batchStep {B : Type} (o : TrainOracle B) (ac : ℚ)
    (server_params prev_grads : List ℚ) (st : List Param × ℚ) (b : B) :
    List Param × ℚ :=
  let curr := (get_all_params_of st.1).getD []
  let loss := o.taskLoss st.1 b + penalty ac curr server_params prev_grads
  (o.optStep st.1 b loss, st.2 + loss)

/-- `FedDynClient.fit` from feddyn.py: snapshot `server_params` by flattening
the model before training, force `requires_grad` on every parameter, run
`epochs` epochs of minibatch steps, then update the surrogate once:
`prev_grads += alpha_coef_adpt * (server_params - curr_params)` with
`curr_params` the flattened model after training; return the trained model,
the new `prev_grads` and the averaged running loss.  When the model has no
trainable parameter, `get_all_params_of` returns `None` and the source
crashes on the penalty arithmetic, modelled by `none`. -/
def FedDynClient.fit {B : Type} (o : TrainOracle B) (alpha weight : ℚ)
    (batches : List B) (epochs : ℕ) (model : List Param) (prev_grads : List ℚ) :
    Option (List Param × List ℚ × ℚ) :=
  match get_all_params_of model with
  | none => none
  | some server_params =>
      let model1 := model.map (fun p => { p with requires_grad := true })
      let res := (List.range epochs).foldl
        (fun st _ => batches.foldl
          (batchStep o (alpha_coef_adpt alpha weight) server_params prev_grads) st)
        (model1, 0)
      some (res.1,
        ladd prev_grads (lsmul (alpha_coef_adpt alpha weight)
          (lsub server_params ((get_all_params_of res.1).getD []))),
        res.2 / ((epochs : ℚ) * (batches.length : ℚ)))

/-- C2: whenever `FedDynClient.fit` completes, the persistent surrogate is
updated exactly once, to `prev_grads + (alpha / weight) * (server_params -
curr_params_final)`, where `server_params` flattens the trainable parameters
of the model as received (snapshotted before training) and
`curr_params_final` flattens the returned trained model. -/
theorem feddyn_fit_prev_grads {B : Type} (o : TrainOracle B) (alpha weight : ℚ)
    (batches : List B) (epochs : ℕ) (model : List Param) (pg : List ℚ)
    (r : List Param × List ℚ × ℚ)
    (h : FedDynClient.fit o alpha weight batches epochs model pg = some r) :
    r.2.1 = ladd pg (lsmul (alpha / weight)
      (lsub ((get_all_params_of model).getD [])
        ((get_all_params_of r.1).getD []))) := by
  cases hm : get_all_params_of model with
  | none =>
      rw [FedDynClient.fit, hm] at h
      exact Option.noConfusion h
  | some sp =>
      rw [FedDynClient.fit, hm] at h
      have hr := Option.some.inj h
      subst hr
      rfl

/-- Witness for C2 at the spec's concrete example: `alpha = 0.1`,
`weight = 1`, `server_params = [0, 0]`, trained `curr_params = [1, 1]`,
`prev_grads = [0, 0]` before, giving `[-0.1, -0.1]` after. -/
theorem feddyn_fit_prev_grads_ex :
    (([⟨true, [1, 1]⟩], [-(1 : ℚ)/10, -(1 : ℚ)/10], (0 : ℚ)) :
        List Param × List ℚ × ℚ).2.1
      = ladd [0, 0] (lsmul ((1 : ℚ)/10 / 1)
          (lsub ((get_all_params_of [⟨true, [0, 0]⟩]).getD [])
            ((get_all_params_of
                (([⟨true, [1, 1]⟩], [-(1 : ℚ)/10, -(1 : ℚ)/10], (0 : ℚ)) :
                  List Param × List ℚ × ℚ).1).getD []))) :=
  feddyn_fit_prev_grads
    (⟨fun _ _ => 0, fun _ _ _ => [⟨true, [1, 1]⟩]⟩ : TrainOracle Unit)
    ((1 : ℚ)/10) 1 [()] 1 [⟨true, [0, 0]⟩] [0, 0]
    ([⟨true, [1, 1]⟩], [-(1 : ℚ)/10, -(1 : ℚ)/10], (0 : ℚ))
    (by norm_num [FedDynClient.fit, get_all_params_of, batchStep, penalty,
      alpha_coef_adpt, ldot, ladd, lneg, lsub, lsmul, List.range_succ])

lemma ladd_lneg_eq_lsub : ∀ s p : List ℚ, ladd (lneg s) p = lsub p s := by
  intro s
  induction s with
  | nil => intro p; cases p <;> rfl
  | cons a s ih =>
      intro p
      cases p with
      | nil => rfl
      | cons b tl =>
          show (-a + b) :: ladd (lneg s) tl = (b - a) :: lsub tl s
          rw [ih tl, neg_add_eq_sub]

/-- C3: in `FedDynClient.fit` the per-client regularization strength is
`alpha_coef_adpt = alpha / weight`, and every minibatch adds the scalar
penalty `alpha_coef_adpt * sum(curr_params * (prev_grads - server_params))`
(with `curr_params` the flattened current trainable parameters) to the task
loss before backpropagation: the optimizer step receives the summed loss and
the running loss accumulates it. -/
theorem feddyn_fit_penalty_formula {B : Type} (o : TrainOracle B)
    (alpha weight : ℚ) (sp pg : List ℚ) (m : List Param) (rl : ℚ) (b : B) :
    alpha_coef_adpt alpha weight = alpha / weight
    ∧ batchStep o (alpha_coef_adpt alpha weight) sp pg (m, rl) b
        = (o.optStep m b (o.taskLoss m b
              + alpha / weight * ldot ((get_all_params_of m).getD []) (lsub pg sp)),
           rl + (o.taskLoss m b
              + alpha / weight * ldot ((get_all_params_of m).getD []) (lsub pg sp))) := by
  refine ⟨rfl, ?_⟩
  show (o.optStep m b (o.taskLoss m b
          + penalty (alpha_coef_adpt alpha weight) ((get_all_params_of m).getD []) sp pg),
        rl + (o.taskLoss m b
          + penalty (alpha_coef_adpt alpha weight) ((get_all_params_of m).getD []) sp pg))
      = _
  rw [penalty, ladd_lneg_eq_lsub, alpha_coef_adpt]

/-- Client state relevant to the Algorithm B weight exchange: the client
index, its example count (`self.train_set.tensors[0].shape[0]`, the first
dimension of the training-data tensor), and the weight received from the
server (`None` until the exchange). -/
structure FedDynClient where
  index : ℕ
  train_set_size : ℕ
  weight : Option ℚ
deriving DecidableEq

/-- `FedDynClient._send_weight`: the payload sent to the server is the
client's example count. -/
def send_weight_payload (c : FedDynClient) : ℕ := c.train_set_size

/-- The normalization in `FedDynServer.fit`:
`weights = weights / np.sum(weights) * self.n_clients`. -/
def normalized_weights (counts : List ℚ) (n_clients : ℚ) : List ℚ :=
  counts.map (fun c => c / counts.sum * n_clients)

/-- The weight-exchange sub-protocol of `FedDynServer.fit`: every client
reports its example count, the server normalizes the counts
(`self.n_clients` is the total number of clients) and sends `weights[i]`
back to client `i`, which stores it in `self.weight`
(`_receive_weights`). -/
def weight_exchange (clients : List FedDynClient) : List FedDynClient :=
  let ws := normalized_weights
    (clients.map (fun c => ((send_weight_payload c : ℚ)))) (clients.length : ℚ)
  List.zipWith (fun c w => { c with weight := some w }) clients ws

lemma sum_map_div_mul (l : List ℚ) (S N : ℚ) :
    (l.map (fun c => c / S * N)).sum = l.sum / S * N := by
  induction l with
  | nil => simp
  | cons a tl ih =>
      simp only [List.map_cons, List.sum_cons, ih]
      ring

/-- C4: in the weight-exchange sub-protocol each client reports its example
count, and afterwards the weight stored by client `i` equals
`(count_i / Σ_j count_j) * N_clients`; the server-side normalized weights sum
to `N_clients` (so the mean stored weight is 1 when all counts are equal). -/
theorem feddyn_weight_normalization (clients : List FedDynClient)
    (h : (clients.map (fun c => ((c.train_set_size : ℚ)))).sum ≠ 0) :
    (∀ i (hi : i < clients.length),
        (weight_exchange clients)[i]?
          = some { clients.get ⟨i, hi⟩ with
              weight := some (((clients.get ⟨i, hi⟩).train_set_size : ℚ)
                / (clients.map (fun c => ((c.train_set_size : ℚ)))).sum
                * (clients.length : ℚ)) })
    ∧ (normalized_weights (clients.map (fun c => ((c.train_set_size : ℚ))))
        (clients.length : ℚ)).sum = (clients.length : ℚ) := by
  constructor
  · intro i hi
    rw [weight_exchange]
    simp only [List.getElem?_zipWith, normalized_weights, List.getElem?_map,
      List.getElem?_eq_getElem hi]
    simp [send_weight_payload]
  · rw [normalized_weights, sum_map_div_mul, div_self h, one_mul]

/-- Witness for C4 at the spec's example: counts `[10, 20, 30]` give stored
weights `[0.5, 1.0, 1.5]` (element 0 shown via the theorem) and the
normalized weights sum to `3 = N_clients`. -/
theorem feddyn_weight_normalization_ex :
    (∀ i (hi : i < ([⟨0, 10, none⟩, ⟨1, 20, none⟩, ⟨2, 30, none⟩] :
          List FedDynClient).length),
        (weight_exchange [⟨0, 10, none⟩, ⟨1, 20, none⟩, ⟨2, 30, none⟩])[i]?
          = some { ([⟨0, 10, none⟩, ⟨1, 20, none⟩, ⟨2, 30, none⟩] :
                List FedDynClient).get ⟨i, hi⟩ with
              weight := some (((([⟨0, 10, none⟩, ⟨1, 20, none⟩, ⟨2, 30, none⟩] :
                    List FedDynClient).get ⟨i, hi⟩).train_set_size : ℚ)
                / (([⟨0, 10, none⟩, ⟨1, 20, none⟩, ⟨2, 30, none⟩] :
                    List FedDynClient).map
                      (fun c => ((c.train_set_size : ℚ)))).sum
                * (([⟨0, 10, none⟩, ⟨1, 20, none⟩, ⟨2, 30, none⟩] :
                    List FedDynClient).length : ℚ)) })
    ∧ (normalized_weights
        (([⟨0, 10, none⟩, ⟨1, 20, none⟩, ⟨2, 30, none⟩] :
            List FedDynClient).map (fun c => ((c.train_set_size : ℚ))))
        (([⟨0, 10, none⟩, ⟨1, 20, none⟩, ⟨2, 30, none⟩] :
            List FedDynClient).length : ℚ)).sum
      = (([⟨0, 10, none⟩, ⟨1, 20, none⟩, ⟨2, 30, none⟩] :
          List FedDynClient).length : ℚ) :=
  feddyn_weight_normalization [⟨0, 10, none⟩, ⟨1, 20, none⟩, ⟨2, 30, none⟩]
    (by norm_num)

/-- Modelled from the spec: `aggregate_models` (`fluke.utils.model`, not
under src), per spec section 4.4: `agg = model + lr * Σ_i weight_i *
(client_model_i − model)` per parameter, walking the parameter list with its
index `j`.  A client entry missing at index `j` (excluded by the identical-
architecture invariant of spec section 3) defaults to the server parameter,
making its diff zero. -/
def agg_aux (lr : ℚ) (wcs : List (ℚ × List Param)) : List Param → ℕ → List Param
  | [], _ => []
  | p :: ps, j =>
      { p with data := ladd p.data (lsmul lr
          (wcs.foldl (fun acc wc =>
              ladd acc (lsmul wc.1 (lsub ((wc.2.getD j p).data) p.data)))
            (p.data.map (fun _ => 0)))) } :: agg_aux lr wcs ps (j + 1)

/-- Modelled from the spec: `aggregate_models(self.model, client_models,
weights, eta=self.hyper_params.lr, inplace=False)` as used by
`FedDynServer.aggregate`. -/
def aggregate_models (lr : ℚ) (model : List Param) (clients : List (List Param))
    (ws : List ℚ) : List Param :=
  agg_aux lr (ws.zip clients) model 0

/-- Server state of `FedDynServer`: the global model, the cloud model
(`self.cld_mdl`), the aggregation learning rate (`self.hyper_params.lr`) and
the per-client weights of the weight-exchange step. -/
structure FedDynServer where
  model : List Param
  cld_mdl : List Param
  lr : ℚ
  client_weights : List ℚ

/-- Modelled from the spec: `self._get_client_weights(eligible)` (base
`Server` class, not under src).  Per spec section 4.4 the weights used for
model aggregation are the same normalized weights produced by the
weight-exchange step (spec section 9 records this reuse as intended). -/
def FedDynServer.get_client_weights (s : FedDynServer) : List ℚ :=
  s.client_weights

/-- The server side of the weight-computation phase of `FedDynServer.fit`:
collect every client's reported example count, normalize by the total and
scale by `self.n_clients`. -/
def FedDynServer.fit_weight_phase (s : FedDynServer)
    (clients : List FedDynClient) : FedDynServer :=
  { s with client_weights := (normalized_weights
      (clients.map (fun c => ((send_weight_payload c : ℚ))))
      (clients.length : ℚ)) }

/-- The gradient-collection loop of `FedDynServer.aggregate`: received
`prev_grads` payloads that are `None` are skipped, the first reported
gradient initializes `avg_grad`, later ones are added, and `grad_count`
counts the reports. -/
def avg_grad_fold (pgs : List (Option (List ℚ))) : Option (List ℚ) × ℕ :=
  pgs.foldl
    (fun acc pg =>
      match pg with
      | none => acc
      | some g =>
          match acc.1 with
          | none => (some g, acc.2 + 1)
          | some s => (some (ladd s g), acc.2 + 1))
    (none, 0)

/-- `FedDynServer.aggregate` from feddyn.py: aggregate the client models with
the client weights and learning rate, average the reported `prev_grads`
(divide by `grad_count` when positive), commit the aggregated state dict to
the global model, and rebuild the cloud model by loading
`get_all_params_of(self.model) + avg_grad`.  With no reported gradient
`avg_grad` stays `None` and the source raises on `avg_grad.to(device)`,
modelled by `none`. -/
def FedDynServer.aggregate (s : FedDynServer) (client_models : List (List Param))
    (pgs : List (Option (List ℚ))) : Option FedDynServer :=
  let agg := aggregate_models s.lr s.model client_models s.get_client_weights
  let r := avg_grad_fold pgs
  match r.1 with
  | none => none
  | some sum0 =>
      let avg := if 0 < r.2 then sum0.map (fun x => x / (r.2 : ℚ)) else sum0
      some { s with
        model := agg
        cld_mdl := load_all_params s.cld_mdl
          (ladd ((get_all_params_of agg).getD []) avg) }

/-- Spec-side formula (claims C5): the element-wise arithmetic mean of a list
of `n`-element vectors, equal weight per vector. -/
def meanSpec (n : ℕ) (gs : List (List ℚ)) : List ℚ :=
  (List.range n).map (fun i => (gs.map (fun g => g.getD i 0)).sum / (gs.length : ℚ))

lemma ladd_length (a b : List ℚ) : (ladd a b).length = min a.length b.length :=
  List.length_zipWith _ a b

lemma ladd_getD : ∀ (a b : List ℚ) (i : ℕ), i < a.length → i < b.length →
    (ladd a b).getD i 0 = a.getD i 0 + b.getD i 0 := by
  intro a
  induction a with
  | nil => intro b i h _; simp at h
  | cons x xs ih =>
      intro b i ha hb
      cases b with
      | nil => simp at hb
      | cons y ys =>
          cases i with
          | zero => rfl
          | succ k =>
              have hka : k < xs.length := Nat.lt_of_succ_lt_succ ha
              have hkb : k < ys.length := Nat.lt_of_succ_lt_succ hb
              show (ladd xs ys).getD k 0 = xs.getD k 0 + ys.getD k 0
              exact ih ys k hka hkb

lemma lsub_length (a b : List ℚ) : (lsub a b).length = min a.length b.length :=
  List.length_zipWith _ a b

lemma lsub_getD : ∀ (a b : List ℚ) (i : ℕ), i < a.length → i < b.length →
    (lsub a b).getD i 0 = a.getD i 0 - b.getD i 0 := by
  intro a
  induction a with
  | nil => intro b i h _; simp at h
  | cons x xs ih =>
      intro b i ha hb
      cases b with
      | nil => simp at hb
      | cons y ys =>
          cases i with
          | zero => rfl
          | succ k =>
              exact ih ys k (Nat.lt_of_succ_lt_succ ha) (Nat.lt_of_succ_lt_succ hb)

lemma lsmul_getD (c : ℚ) : ∀ (a : List ℚ) (i : ℕ), i < a.length →
    (lsmul c a).getD i 0 = c * a.getD i 0 := by
  intro a
  induction a with
  | nil => intro i h; simp at h
  | cons x xs ih =>
      intro i h
      cases i with
      | zero => rfl
      | succ k => exact ih k (Nat.lt_of_succ_lt_succ h)

lemma getD_map_div (c : ℚ) : ∀ (a : List ℚ) (i : ℕ), i < a.length →
    (a.map (fun x => x / c)).getD i 0 = a.getD i 0 / c := by
  intro a
  induction a with
  | nil => intro i h; simp at h
  | cons x xs ih =>
      intro i h
      cases i with
      | zero => rfl
      | succ k => exact ih k (Nat.lt_of_succ_lt_succ h)

lemma foldl_ladd_getD (n : ℕ) : ∀ (l : List (List ℚ)) (a : List ℚ),
    a.length = n → (∀ t ∈ l, t.length = n) →
    (l.foldl ladd a).length = n
    ∧ ∀ i, i < n →
        (l.foldl ladd a).getD i 0 = a.getD i 0 + (l.map (fun t => t.getD i 0)).sum := by
  intro l
  induction l with
  | nil => intro a ha _; exact ⟨ha, by simp⟩
  | cons t ts ih =>
      intro a ha hts
      have hts' : ∀ u ∈ ts, u.length = n := fun u hu => hts u (List.mem_cons_of_mem t hu)
      have ht : t.length = n := hts t (List.mem_cons_self t ts)
      have hlen : (ladd a t).length = n := by
        rw [ladd_length, ha, ht, Nat.min_self]
      obtain ⟨h1, h2⟩ := ih (ladd a t) hlen hts'
      refine ⟨h1, fun i hi => ?_⟩
      rw [List.foldl_cons, h2 i hi,
        ladd_getD a t i (ha ▸ hi) (ht ▸ hi), List.map_cons, List.sum_cons]
      ring

/-- One step of the gradient-collection loop, on an already-present payload. -/
def grad_step (acc : Option (List ℚ) × ℕ) (g : List ℚ) : Option (List ℚ) × ℕ :=
  match acc.1 with
  | none => (some g, acc.2 + 1)
  | some s => (some (ladd s g), acc.2 + 1)

lemma avg_fold_filterMap : ∀ (pgs : List (Option (List ℚ)))
    (acc : Option (List ℚ) × ℕ),
    pgs.foldl
      (fun acc pg =>
        match pg with
        | none => acc
        | some g =>
            match acc.1 with
            | none => (some g, acc.2 + 1)
            | some s => (some (ladd s g), acc.2 + 1))
      acc
      = (pgs.filterMap id).foldl grad_step acc := by
  intro pgs
  induction pgs with
  | nil => intro acc; rfl
  | cons pg tl ih =>
      intro acc
      cases pg with
      | none => simp only [List.foldl_cons, List.filterMap_cons]; exact ih acc
      | some g =>
          simp only [List.foldl_cons, List.filterMap_cons]
          exact ih (grad_step acc g)

lemma fold2_some : ∀ (rest : List (List ℚ)) (s : List ℚ) (c : ℕ),
    rest.foldl grad_step (some s, c) = (some (rest.foldl ladd s), c + rest.length) := by
  intro rest
  induction rest with
  | nil => intro s c; simp
  | cons g gs ih =>
      intro s c
      show gs.foldl grad_step (some (ladd s g), c + 1) = _
      rw [ih (ladd s g) (c + 1), List.foldl_cons, List.length_cons]
      congr 1
      omega

lemma avg_grad_fold_eq (pgs : List (Option (List ℚ))) (g : List ℚ)
    (gs : List (List ℚ)) (hgs : pgs.filterMap id = g :: gs) :
    avg_grad_fold pgs = (some (gs.foldl ladd g), gs.length + 1) := by
  rw [avg_grad_fold, avg_fold_filterMap, hgs, List.foldl_cons]
  show gs.foldl grad_step (some g, 0 + 1) = _
  rw [fold2_some]
  congr 1
  omega

lemma trainFlat_load (params : List ℚ) : ∀ (model : List Param) (idx : ℕ),
    trainFlat (load_aux params model idx)
      = (params.drop idx).take (trainable_size model) := by
  intro model
  induction model with
  | nil => intro idx; simp [load_aux, trainFlat, trainable_size]
  | cons p ps ih =>
      intro idx
      obtain ⟨rg, pd⟩ := p
      cases rg with
      | true =>
          show trainFlat ((⟨true, (params.drop idx).take pd.length⟩ : Param) ::
                load_aux params ps (idx + pd.length)) = _
          rw [trainFlat_cons, if_pos rfl, ih (idx + pd.length),
            trainable_size_cons, if_pos rfl]
          show _ = (params.drop idx).take (pd.length + trainable_size ps)
          rw [List.take_add]
          congr 1
          rw [List.drop_drop, Nat.add_comm]
      | false =>
          show trainFlat ((⟨false, pd⟩ : Param) :: load_aux params ps idx) = _
          rw [trainFlat_cons]
          simp only [Bool.false_eq_true, if_false]
          rw [ih idx, trainable_size_cons]
          simp only [Bool.false_eq_true, if_false]

lemma load_aux_exists_trainable (params : List ℚ) : ∀ (model : List Param) (idx : ℕ),
    (∃ p ∈ model, p.requires_grad = true) →
    ∃ q ∈ load_aux params model idx, q.requires_grad = true := by
  intro model
  induction model with
  | nil => intro idx h; simp at h
  | cons p ps ih =>
      intro idx h
      obtain ⟨rg, pd⟩ := p
      cases rg with
      | true =>
          exact ⟨(⟨true, (params.drop idx).take pd.length⟩ : Param),
            List.mem_cons_self _ _, rfl⟩
      | false =>
          have hps : ∃ p ∈ ps, p.requires_grad = true := by
            rcases h with ⟨q, hq, hqt⟩
            rcases List.mem_cons.mp hq with h1 | h2
            · rw [h1] at hqt; exact absurd hqt (by simp)
            · exact ⟨q, h2, hqt⟩
          obtain ⟨q, hq, hqt⟩ := ih idx hps
          exact ⟨q, List.mem_cons_of_mem _ hq, hqt⟩

lemma get_load_all_params (cld : List Param) (v : List ℚ)
    (hv : v.length = trainable_size cld)
    (hex : ∃ p ∈ cld, p.requires_grad = true) :
    get_all_params_of (load_all_params cld v) = some v := by
  rw [load_all_params,
    get_all_params_eq_trainFlat _ (load_aux_exists_trainable v cld 0 hex),
    trainFlat_load, List.drop_zero, ← hv, List.take_length]

lemma list_getD_lt (l : List ℚ) (i : ℕ) (h : i < l.length) :
    l.getD i 0 = l.get ⟨i, h⟩ := by
  rw [List.getD_eq_getElem?_getD, List.getElem?_eq_getElem h]
  rfl

lemma meanSpec_length (n : ℕ) (gs : List (List ℚ)) : (meanSpec n gs).length = n := by
  simp [meanSpec]

lemma map_div_eq_meanSpec (n : ℕ) (gs : List (List ℚ)) (s : List ℚ)
    (hs : s.length = n)
    (hpt : ∀ i, i < n → s.getD i 0 = (gs.map (fun g => g.getD i 0)).sum) :
    s.map (fun x => x / (gs.length : ℚ)) = meanSpec n gs := by
  apply List.ext_getElem
  · simp [meanSpec, hs]
  · intro i h1 h2
    have hin : i < n := by simpa [hs] using h1
    have hi : i < s.length := by simpa [hs] using hin
    rw [List.getElem_map]
    have hmean : (meanSpec n gs).get ⟨i, h2⟩
        = (gs.map (fun g => g.getD i 0)).sum / (gs.length : ℚ) := by
      simp [meanSpec]
    rw [List.get_eq_getElem] at hmean
    rw [hmean, ← hpt i hin, list_getD_lt s i hi, List.get_eq_getElem]

/-- C5: whenever `FedDynServer.aggregate` runs with at least one reported
gradient, the collected `avg_grad` is the element-wise arithmetic mean
(equal weight per reporting client) of the reported `prev_grads`, and the new
cloud model is the old one with `flatten(new global model) + avg_grad` loaded
back over its trainable parameters in flattening order; flattening the new
cloud model returns exactly that vector. -/
theorem feddyn_aggregate_cloud (s : FedDynServer) (cms : List (List Param))
    (pgs : List (Option (List ℚ))) (n : ℕ) (fa : List ℚ)
    (hne : pgs.filterMap id ≠ [])
    (hlen : ∀ g ∈ pgs.filterMap id, g.length = n)
    (hagg : get_all_params_of
        (aggregate_models s.lr s.model cms s.get_client_weights) = some fa)
    (hfa : fa.length = n)
    (hcld : trainable_size s.cld_mdl = n)
    (hex : ∃ p ∈ s.cld_mdl, p.requires_grad = true) :
    s.aggregate cms pgs
      = some { s with
          model := aggregate_models s.lr s.model cms s.get_client_weights
          cld_mdl := load_all_params s.cld_mdl
            (ladd fa (meanSpec n (pgs.filterMap id))) }
    ∧ get_all_params_of (load_all_params s.cld_mdl
          (ladd fa (meanSpec n (pgs.filterMap id))))
        = some (ladd fa (meanSpec n (pgs.filterMap id))) := by
  obtain ⟨g, gs, hgs⟩ : ∃ g gs, pgs.filterMap id = g :: gs := by
    cases hh : pgs.filterMap id with
    | nil => exact absurd hh hne
    | cons g gs => exact ⟨g, gs, rfl⟩
  have hg : g.length = n := hlen g (by rw [hgs]; exact List.mem_cons_self g gs)
  have hgsl : ∀ u ∈ gs, u.length = n := fun u hu =>
    hlen u (by rw [hgs]; exact List.mem_cons_of_mem g hu)
  obtain ⟨hslen, hspt⟩ := foldl_ladd_getD n gs g hg hgsl
  have hmean : (gs.foldl ladd g).map (fun x => x / (((gs.length + 1 : ℕ)) : ℚ))
      = meanSpec n (pgs.filterMap id) := by
    rw [hgs]
    have : ((g :: gs).length : ℚ) = ((gs.length + 1 : ℕ) : ℚ) := by
      simp
    rw [← this]
    apply map_div_eq_meanSpec n (g :: gs) _ hslen
    intro i hi
    rw [hspt i hi, List.map_cons, List.sum_cons]
  have hlenv : (ladd fa (meanSpec n (pgs.filterMap id))).length = n := by
    rw [ladd_length, hfa, meanSpec_length, Nat.min_self]
  have hfold := avg_grad_fold_eq pgs g gs hgs
  constructor
  · rw [FedDynServer.aggregate]
    rw [hfold]
    show some _ = some _
    rw [if_pos (Nat.succ_pos gs.length), hagg]
    show some { s with
        model := aggregate_models s.lr s.model cms s.get_client_weights
        cld_mdl := load_all_params s.cld_mdl
          (ladd fa ((gs.foldl ladd g).map
            (fun x => x / (((gs.length + 1 : ℕ)) : ℚ)))) } = _
    rw [hmean]
  · exact get_load_all_params s.cld_mdl _ (hlenv.trans hcld.symm) hex

/-- Witness for C5: one-parameter models, reported gradients `[2]` and `[4]`
averaging to `[3]`, aggregated global model `[0]`, cloud vector `[0 + 3]`. -/
theorem feddyn_aggregate_cloud_ex :
    (FedDynServer.aggregate ⟨[⟨true, [0]⟩], [⟨true, [0]⟩], 1, []⟩ []
        [some [2], some [4]]
      = some { (⟨[⟨true, [0]⟩], [⟨true, [0]⟩], 1, []⟩ : FedDynServer) with
          model := aggregate_models 1 [⟨true, [0]⟩] []
            (FedDynServer.get_client_weights ⟨[⟨true, [0]⟩], [⟨true, [0]⟩], 1, []⟩)
          cld_mdl := load_all_params [⟨true, [0]⟩]
            (ladd [0] (meanSpec 1 (([some [2], some [4]] :
                List (Option (List ℚ))).filterMap id))) })
    ∧ get_all_params_of (load_all_params [⟨true, [0]⟩]
          (ladd [0] (meanSpec 1 (([some [2], some [4]] :
              List (Option (List ℚ))).filterMap id))))
        = some (ladd [0] (meanSpec 1 (([some [2], some [4]] :
            List (Option (List ℚ))).filterMap id))) :=
  feddyn_aggregate_cloud ⟨[⟨true, [0]⟩], [⟨true, [0]⟩], 1, []⟩ [] [some [2], some [4]]
    1 [0]
    (by simp)
    (by rintro g hg; simp [List.filterMap] at hg; rcases hg with h | h <;> simp [h])
    (by norm_num [aggregate_models, agg_aux, FedDynServer.get_client_weights,
      get_all_params_of, ladd, lsmul, lsub])
    (by simp)
    (by rfl)
    ⟨⟨true, [0]⟩, List.mem_cons_self _ _, rfl⟩

lemma agg_aux_length (lr : ℚ) (wcs : List (ℚ × List Param)) :
    ∀ (model : List Param) (j0 : ℕ),
      (agg_aux lr wcs model j0).length = model.length := by
  intro model
  induction model with
  | nil => intro j0; rfl
  | cons p ps ih => intro j0; simp [agg_aux, ih]

lemma agg_aux_get (lr : ℚ) (wcs : List (ℚ × List Param)) :
    ∀ (model : List Param) (j0 j : ℕ) (hj : j < model.length)
      (hj2 : j < (agg_aux lr wcs model j0).length),
      (agg_aux lr wcs model j0).get ⟨j, hj2⟩
        = { model.get ⟨j, hj⟩ with
            data := (ladd (model.get ⟨j, hj⟩).data (lsmul lr
              (wcs.foldl (fun acc wc => ladd acc (lsmul wc.1
                  (lsub ((wc.2.getD (j0 + j) (model.get ⟨j, hj⟩)).data)
                    (model.get ⟨j, hj⟩).data)))
                ((model.get ⟨j, hj⟩).data.map (fun _ => 0))))) } := by
  intro model
  induction model with
  | nil => intro j0 j hj _; simp at hj
  | cons p ps ih =>
      intro j0 j hj hj2
      cases j with
      | zero =>
          show ({ p with data := (ladd p.data (lsmul lr
              (wcs.foldl (fun acc wc => ladd acc (lsmul wc.1
                  (lsub ((wc.2.getD j0 p).data) p.data)))
                (p.data.map (fun _ => 0))))) } : Param) = _
          rw [Nat.add_zero]
          rfl
      | succ k =>
          have hk : k < ps.length := Nat.lt_of_succ_lt_succ hj
          have hk2 : k < (agg_aux lr wcs ps (j0 + 1)).length := by
            rw [agg_aux_length]; exact hk
          show (agg_aux lr wcs ps (j0 + 1)).get ⟨k, hk2⟩ = _
          rw [ih (j0 + 1) k hk hk2]
          have : j0 + 1 + k = j0 + (k + 1) := by omega
          rw [this]
          rfl

lemma map_zero_getD : ∀ (l : List ℚ) (e : ℕ),
    (l.map (fun _ => (0 : ℚ))).getD e 0 = 0 := by
  intro l
  induction l with
  | nil => intro e; simp
  | cons x xs ih =>
      intro e
      cases e with
      | zero => rfl
      | succ k => exact ih k

lemma agg_fold_getD (p : Param) (j : ℕ) (wcs : List (ℚ × List Param)) (e : ℕ)
    (he : e < p.data.length)
    (hsh : ∀ wc ∈ wcs, ((wc.2.getD j p).data).length = p.data.length) :
    (wcs.foldl (fun acc wc => ladd acc (lsmul wc.1
        (lsub ((wc.2.getD j p).data) p.data)))
      (p.data.map (fun _ => 0))).getD e 0
      = (wcs.map (fun wc => wc.1 * ((wc.2.getD j p).data.getD e 0
          - p.data.getD e 0))).sum := by
  have hfold : wcs.foldl (fun acc wc => ladd acc (lsmul wc.1
        (lsub ((wc.2.getD j p).data) p.data)))
      (p.data.map (fun _ => 0))
      = (wcs.map (fun wc => lsmul wc.1
          (lsub ((wc.2.getD j p).data) p.data))).foldl ladd
        (p.data.map (fun _ => 0)) := by
    rw [List.foldl_map]
  rw [hfold]
  have hz : (p.data.map (fun _ => (0 : ℚ))).length = p.data.length :=
    List.length_map _ _
  have hterms : ∀ t ∈ wcs.map (fun wc => lsmul wc.1
      (lsub ((wc.2.getD j p).data) p.data)), t.length = p.data.length := by
    intro t ht
    rcases List.mem_map.mp ht with ⟨wc, hwc, rfl⟩
    show (lsmul wc.1 (lsub ((wc.2.getD j p).data) p.data)).length = _
    rw [lsmul, List.length_map, lsub_length, hsh wc hwc, Nat.min_self]
  obtain ⟨_, hpt⟩ := foldl_ladd_getD p.data.length
    (wcs.map (fun wc => lsmul wc.1 (lsub ((wc.2.getD j p).data) p.data)))
    (p.data.map (fun _ => 0)) hz hterms
  rw [hpt e he, map_zero_getD, zero_add, List.map_map]
  congr 1
  apply List.map_congr_left
  intro wc hwc
  show (lsmul wc.1 (lsub ((wc.2.getD j p).data) p.data)).getD e 0 = _
  have hlsub : (lsub ((wc.2.getD j p).data) p.data).length = p.data.length := by
    rw [lsub_length, hsh wc hwc, Nat.min_self]
  rw [lsmul_getD wc.1 _ e (by rw [hlsub]; exact he),
    lsub_getD _ _ e (by rw [hsh wc hwc]; exact he) he]

/-- C6: the model aggregation of `FedDynServer.aggregate` computes, per
parameter element, `agg = model + lr * Σ_i weight_i * (client_i − model)`,
and the `weight_i` it uses (`self._get_client_weights`) are the same
normalized weights produced by the weight-exchange step
(`(count_i / Σ count_j) * N_clients`), not per-round sample fractions. -/
theorem feddyn_aggregate_weighted_blend (s0 : FedDynServer)
    (clients : List FedDynClient) (cms : List (List Param)) :
    FedDynServer.get_client_weights (s0.fit_weight_phase clients)
      = normalized_weights
          (clients.map (fun c => ((send_weight_payload c : ℚ))))
          (clients.length : ℚ)
    ∧ ∀ (j e : ℕ) (hj : j < s0.model.length)
        (he : e < (s0.model.get ⟨j, hj⟩).data.length)
        (hj2 : j < (aggregate_models s0.lr s0.model cms
            (FedDynServer.get_client_weights (s0.fit_weight_phase clients))).length),
        (∀ wc ∈ (FedDynServer.get_client_weights (s0.fit_weight_phase clients)).zip cms,
            ((wc.2.getD j (s0.model.get ⟨j, hj⟩)).data).length
              = (s0.model.get ⟨j, hj⟩).data.length) →
        ((aggregate_models s0.lr s0.model cms
            (FedDynServer.get_client_weights (s0.fit_weight_phase clients))).get
              ⟨j, hj2⟩).data.getD e 0
          = (s0.model.get ⟨j, hj⟩).data.getD e 0
            + s0.lr * (((FedDynServer.get_client_weights
                (s0.fit_weight_phase clients)).zip cms).map (fun wc =>
                  wc.1 * ((wc.2.getD j (s0.model.get ⟨j, hj⟩)).data.getD e 0
                    - (s0.model.get ⟨j, hj⟩).data.getD e 0))).sum := by
  refine ⟨rfl, ?_⟩
  intro j e hj he hj2 hsh
  set ws := FedDynServer.get_client_weights (s0.fit_weight_phase clients) with hws
  have hj2' : j < (agg_aux s0.lr (ws.zip cms) s0.model 0).length := hj2
  have hget : (aggregate_models s0.lr s0.model cms ws).get ⟨j, hj2⟩
      = (agg_aux s0.lr (ws.zip cms) s0.model 0).get ⟨j, hj2'⟩ := rfl
  rw [hget, agg_aux_get s0.lr (ws.zip cms) s0.model 0 j hj hj2']
  show (ladd (s0.model.get ⟨j, hj⟩).data (lsmul s0.lr
      ((ws.zip cms).foldl (fun acc wc => ladd acc (lsmul wc.1
          (lsub ((wc.2.getD (0 + j) (s0.model.get ⟨j, hj⟩)).data)
            (s0.model.get ⟨j, hj⟩).data)))
        ((s0.model.get ⟨j, hj⟩).data.map (fun _ => 0))))).getD e 0 = _
  rw [Nat.zero_add]
  set p := s0.model.get ⟨j, hj⟩ with hp
  set inner := (ws.zip cms).foldl (fun acc wc => ladd acc (lsmul wc.1
      (lsub ((wc.2.getD j p).data) p.data)))
    ((p.data.map (fun _ => 0))) with hinner
  have hinlen : inner.length = p.data.length := by
    rw [hinner]
    have hz : (p.data.map (fun _ => (0 : ℚ))).length = p.data.length :=
      List.length_map _ _
    have hterms : ∀ t ∈ (ws.zip cms).map (fun wc => lsmul wc.1
        (lsub ((wc.2.getD j p).data) p.data)), t.length = p.data.length := by
      intro t ht
      rcases List.mem_map.mp ht with ⟨wc, hwc, rfl⟩
      show (lsmul wc.1 (lsub ((wc.2.getD j p).data) p.data)).length = _
      rw [lsmul, List.length_map, lsub_length, hsh wc hwc, Nat.min_self]
    rw [← List.foldl_map]
    exact (foldl_ladd_getD p.data.length _ _ hz hterms).1
  rw [ladd_getD p.data (lsmul s0.lr inner) e he
    (by rw [lsmul, List.length_map, hinlen]; exact he)]
  rw [lsmul_getD s0.lr inner e (by rw [hinlen]; exact he)]
  rw [hinner, agg_fold_getD p j (ws.zip cms) e he hsh]

/-- Witness for C6: one client with count 4, weight `4/4*1 = 1`; one
parameter with one element, server value `2`, client value `6`, `lr = 1/2`;
the blended value is `2 + (1/2)*(1*(6-2)) = 4`. -/
theorem feddyn_aggregate_weighted_blend_ex :
    FedDynServer.get_client_weights
        (FedDynServer.fit_weight_phase ⟨[⟨true, [2]⟩], [⟨true, [2]⟩], 1/2, []⟩
          [⟨0, 4, none⟩])
      = normalized_weights
          (([⟨0, 4, none⟩] : List FedDynClient).map
            (fun c => ((send_weight_payload c : ℚ))))
          (([⟨0, 4, none⟩] : List FedDynClient).length : ℚ)
    ∧ ∀ (j e : ℕ)
        (hj : j < ([⟨true, [2]⟩] : List Param).length)
        (he : e < (([⟨true, [2]⟩] : List Param).get ⟨j, hj⟩).data.length)
        (hj2 : j < (aggregate_models (1/2) [⟨true, [2]⟩] [[⟨true, [6]⟩]]
            (FedDynServer.get_client_weights
              (FedDynServer.fit_weight_phase
                ⟨[⟨true, [2]⟩], [⟨true, [2]⟩], 1/2, []⟩ [⟨0, 4, none⟩]))).length),
        (∀ wc ∈ (FedDynServer.get_client_weights
            (FedDynServer.fit_weight_phase
              ⟨[⟨true, [2]⟩], [⟨true, [2]⟩], 1/2, []⟩ [⟨0, 4, none⟩])).zip
                [[⟨true, [6]⟩]],
            ((wc.2.getD j (([⟨true, [2]⟩] : List Param).get ⟨j, hj⟩)).data).length
              = (([⟨true, [2]⟩] : List Param).get ⟨j, hj⟩).data.length) →
        ((aggregate_models (1/2) [⟨true, [2]⟩] [[⟨true, [6]⟩]]
            (FedDynServer.get_client_weights
              (FedDynServer.fit_weight_phase
                ⟨[⟨true, [2]⟩], [⟨true, [2]⟩], 1/2, []⟩ [⟨0, 4, none⟩]))).get
              ⟨j, hj2⟩).data.getD e 0
          = (([⟨true, [2]⟩] : List Param).get ⟨j, hj⟩).data.getD e 0
            + (1/2) * (((FedDynServer.get_client_weights
                (FedDynServer.fit_weight_phase
                  ⟨[⟨true, [2]⟩], [⟨true, [2]⟩], 1/2, []⟩ [⟨0, 4, none⟩])).zip
                    [[⟨true, [6]⟩]]).map (fun wc =>
                  wc.1 * ((wc.2.getD j
                      (([⟨true, [2]⟩] : List Param).get ⟨j, hj⟩)).data.getD e 0
                    - (([⟨true, [2]⟩] : List Param).get ⟨j, hj⟩).data.getD e 0))).sum :=
  feddyn_aggregate_weighted_blend ⟨[⟨true, [2]⟩], [⟨true, [2]⟩], 1/2, []⟩
    [⟨0, 4, none⟩] [[⟨true, [6]⟩]]

/-- Message/act events of one Algorithm B execution, in program order:
weight reports (`client._send_weight()`), weight deliveries
(`channel.send(Message(weights[i], "weight", "server"), client.index)` plus
the client's `_receive_weights`), and the per-round model broadcast, client
training and aggregation of the base round loop. -/
inductive FLEvent
  | weightReport : ℕ → ℕ → FLEvent
  | weightAssign : ℕ → ℚ → FLEvent
  | modelBroadcast : ℕ → FLEvent
  | clientTrain : ℕ → ℕ → FLEvent
  | serverAggregate : ℕ → FLEvent
deriving DecidableEq

/-- Whether an event belongs to the weight-exchange sub-protocol. -/
def isWeightEvent : FLEvent → Bool
  | .weightReport _ _ => true
  | .weightAssign _ _ => true
  | _ => false

/-- Modelled from the spec: the base `Server.fit` round loop (base class, not
under src; spec sections 2 and 4.4): in each round the server broadcasts the
models to the clients, each eligible client trains, and the server
aggregates. -/
def base_fit_trace (n_rounds : ℕ) (ids : List ℕ) : List FLEvent :=
  (List.range n_rounds).flatMap (fun r =>
    FLEvent.modelBroadcast r ::
      (ids.map (fun i => FLEvent.clientTrain r i) ++ [FLEvent.serverAggregate r]))

/-- The event trace of `FedDynServer.fit`: first every client reports its
example count, then the server sends each client its normalized weight (which
the client stores), and only then `super().fit(...)` runs the training
rounds. -/
def FedDynServer.fit_trace (clients : List FedDynClient) (n_rounds : ℕ) :
    List FLEvent :=
  (clients.map (fun c => FLEvent.weightReport c.index (send_weight_payload c))
    ++ List.zipWith (fun c w => FLEvent.weightAssign c.index w) clients
        (normalized_weights
          (clients.map (fun c => ((send_weight_payload c : ℚ))))
          (clients.length : ℚ)))
  ++ base_fit_trace n_rounds (clients.map (fun c => c.index))

lemma zipWith_assign_weight : ∀ (cs : List FedDynClient) (ws : List ℚ),
    ∀ e ∈ List.zipWith (fun c w => FLEvent.weightAssign c.index w) cs ws,
      isWeightEvent e = true := by
  intro cs
  induction cs with
  | nil => intro ws e he; simp at he
  | cons c cs ih =>
      intro ws e he
      cases ws with
      | nil => simp at he
      | cons w ws =>
          rcases List.mem_cons.mp he with h1 | h2
          · rw [h1]; rfl
          · exact ih ws e h2

lemma weight_phase_all_weight (clients : List FedDynClient) :
    ∀ e ∈ clients.map (fun c => FLEvent.weightReport c.index (send_weight_payload c))
        ++ List.zipWith (fun c w => FLEvent.weightAssign c.index w) clients
          (normalized_weights
            (clients.map (fun c => ((send_weight_payload c : ℚ))))
            (clients.length : ℚ)),
      isWeightEvent e = true := by
  intro e he
  rcases List.mem_append.mp he with h1 | h2
  · rcases List.mem_map.mp h1 with ⟨c, _, rfl⟩
    rfl
  · exact zipWith_assign_weight clients _ e h2

lemma base_trace_no_weight (n_rounds : ℕ) (ids : List ℕ) :
    ∀ e ∈ base_fit_trace n_rounds ids, isWeightEvent e = false := by
  intro e he
  rw [base_fit_trace, List.mem_flatMap] at he
  rcases he with ⟨r, _, hre⟩
  rcases List.mem_cons.mp hre with h1 | h2
  · rw [h1]; rfl
  · rcases List.mem_append.mp h2 with h3 | h4
    · rcases List.mem_map.mp h3 with ⟨i, _, rfl⟩
      rfl
    · rw [List.mem_singleton.mp h4]
      rfl

/-- C9: in the trace of `FedDynServer.fit`, every weight-exchange event (all
clients report, every client's normalized weight is sent back and stored)
occurs strictly before every model-broadcast, training or aggregation event
of the round loop: if position `k1` holds a weight event and position `k2` a
non-weight event, then `k1 < k2`. -/
theorem feddyn_weight_exchange_first (clients : List FedDynClient)
    (n_rounds : ℕ) (k1 k2 : ℕ) (e1 e2 : FLEvent)
    (h1 : (FedDynServer.fit_trace clients n_rounds)[k1]? = some e1)
    (h2 : (FedDynServer.fit_trace clients n_rounds)[k2]? = some e2)
    (hw : isWeightEvent e1 = true)
    (ht : isWeightEvent e2 = false) :
    k1 < k2 := by
  set P := clients.map (fun c => FLEvent.weightReport c.index (send_weight_payload c))
      ++ List.zipWith (fun c w => FLEvent.weightAssign c.index w) clients
        (normalized_weights
          (clients.map (fun c => ((send_weight_payload c : ℚ))))
          (clients.length : ℚ)) with hP
  have htr : FedDynServer.fit_trace clients n_rounds
      = P ++ base_fit_trace n_rounds (clients.map (fun c => c.index)) := rfl
  have hk1 : k1 < P.length := by
    by_contra hge
    push_neg at hge
    rw [htr, List.getElem?_append_right hge] at h1
    have := base_trace_no_weight n_rounds (clients.map (fun c => c.index)) e1
      (List.getElem?_mem h1)
    rw [this] at hw
    exact Bool.noConfusion hw
  have hk2 : P.length ≤ k2 := by
    by_contra hlt
    push_neg at hlt
    rw [htr, List.getElem?_append_left hlt] at h2
    have := weight_phase_all_weight clients e2 (List.getElem?_mem h2)
    rw [this] at ht
    exact Bool.noConfusion ht
  exact Nat.lt_of_lt_of_le hk1 hk2

/-- Witness for C9: one client, one round; the weight report at position 0
precedes the model broadcast at position 2. -/
theorem feddyn_weight_exchange_first_ex : (0 : ℕ) < 2 :=
  feddyn_weight_exchange_first [⟨0, 10, none⟩] 1 0 2
    (FLEvent.weightReport 0 10) (FLEvent.modelBroadcast 0)
    (by rfl) (by rfl) (by rfl) (by rfl)

end FedDyn
